import Mathlib

/-!
Verification of the flight-brain message-passing core.

The Rust source consists of three parts:

* `src/message_queue.rs` — a double-buffered generic queue `MessageQueue<T>`
  with fields `current_tick_queue` and `next_tick_queue` (both `VecDeque<T>`),
  and operations `new`, `iter`, `iter_mut`, `push`, `next_tick`.
* `src/system.rs` — the `System<ProgramState, Message>` trait with a single
  method `update(&mut self, &mut ProgramState, &mut MessageQueue<Message>)`.
* `src/run.rs` — the run loop
  `run(program_state, message_queue, update)` which first calls the selection
  closure with an empty systems vector, then while the systems vector is
  non-empty: advances the queue one tick, calls `update` on every system in
  order, and re-invokes the selection closure with the just-dispatched vector.

The embedding below models a `VecDeque<T>` as a `List T` (push_back is append
at the right, iteration is left-to-right traversal), a trait object
`Box<dyn System<S, M>>` as a value of an arbitrary type `Sys` interpreted by
an update function `upd : Sys → S → MessageQueue M → S × MessageQueue M × Sys`
(the final `Sys` component models mutation of the boxed system through
`&mut self`), and the selection closure as
`sel : S → MessageQueue M → List Sys → S × MessageQueue M × List Sys`
(it receives `&mut` access to the state and the queue and consumes/produces
the systems vector).  Since the Rust loop can diverge, the loop is embedded
with an explicit fuel parameter bounding the number of ticks; `none` means
the loop was still running when the fuel ran out.
-/

namespace FlightBrain

/-- Embedding of `MessageQueue<T>` from `src/message_queue.rs`: two buffers,
`current_tick_queue` readable this tick and `next_tick_queue` accumulating
pushes for the following tick. -/
structure MessageQueue (T : Type) where
  current_tick_queue : List T
  next_tick_queue : List T
deriving DecidableEq, Repr

/-- `MessageQueue::new`: both buffers start empty. -/
def MessageQueue.new {T : Type} : MessageQueue T :=
  { current_tick_queue := [], next_tick_queue := [] }

/-- `MessageQueue::iter`: the sequence of messages produced by iterating the
current buffer, in insertion order.  (`iter` takes `&self` in the source, so
the queue itself is untouched; see `MessageQueue.iterate` for the embedding
that makes this explicit.) -/
def MessageQueue.iter {T : Type} (q : MessageQueue T) : List T :=
  q.current_tick_queue

/-- `MessageQueue::iter` as a borrow-faithful operation: calling it yields the
element sequence of the current buffer together with the (unchanged) queue,
mirroring the `&self` receiver of the Rust signature. -/
def MessageQueue.iterate {T : Type} (q : MessageQueue T) :
    List T × MessageQueue T :=
  (q.current_tick_queue, q)

/-- The net effect of a full `MessageQueue::iter_mut` traversal that applies
the in-place mutation `f` to each element of the current buffer: elements can
be modified but not inserted or removed, and the next buffer is untouched. -/
def MessageQueue.iter_mut_apply {T : Type} (q : MessageQueue T) (f : T → T) :
    MessageQueue T :=
  { q with current_tick_queue := q.current_tick_queue.map f }

/-- `MessageQueue::push`: appends the message at the back of the next-tick
buffer; the current buffer is not mentioned at all. -/
def MessageQueue.push {T : Type} (q : MessageQueue T) (message : T) :
    MessageQueue T :=
  { q with next_tick_queue := q.next_tick_queue ++ [message] }

/-- `MessageQueue::next_tick`: `mem::swap` the two buffers, then clear the
new next buffer — so the new current buffer is the old next buffer and the
new next buffer is empty. -/
def MessageQueue.next_tick {T : Type} (q : MessageQueue T) : MessageQueue T :=
  { current_tick_queue := q.next_tick_queue, next_tick_queue := [] }

/-- A sequence of `push` calls, in order. -/
def MessageQueue.pushAll {T : Type} (q : MessageQueue T) (ms : List T) :
    MessageQueue T :=
  ms.foldl MessageQueue.push q

theorem pushAll_current {T : Type} (ms : List T) (q : MessageQueue T) :
    (q.pushAll ms).current_tick_queue = q.current_tick_queue := by
  induction ms generalizing q with
  | nil => rfl
  | cons m ms ih =>
      simpa [MessageQueue.pushAll, MessageQueue.push] using ih (q.push m)

theorem pushAll_next {T : Type} (ms : List T) (q : MessageQueue T) :
    (q.pushAll ms).next_tick_queue = q.next_tick_queue ++ ms := by
  induction ms generalizing q with
  | nil => simp [MessageQueue.pushAll]
  | cons m ms ih =>
      have h := ih (q.push m)
      simp only [MessageQueue.pushAll] at h ⊢
      rw [List.foldl_cons, h]
      simp [MessageQueue.push]

/-- **C1** (one-tick message latency).  Let `q` be a message queue at the
start of tick N — that is, just after an advance, so its next buffer is empty
(every message pushed during tick N is accounted for by `ms`).  Pushing the
sequence `ms` during tick N leaves current-tick iteration unchanged (none of
the pushed messages is returned); after exactly one `next_tick`
(`advance_tick`), iteration returns exactly `ms` in push order and nothing
else; and after a further `next_tick` with no intervening pushes they are
gone. -/
theorem one_tick_latency {T : Type} (q : MessageQueue T) (ms : List T)
    (h : q.next_tick_queue = []) :
    (q.pushAll ms).iter = q.iter
    ∧ ((q.pushAll ms).next_tick).iter = ms
    ∧ (((q.pushAll ms).next_tick).next_tick).iter = [] := by
  refine ⟨?_, ?_, ?_⟩
  · simp [MessageQueue.iter, pushAll_current]
  · simp [MessageQueue.iter, MessageQueue.next_tick, pushAll_next, h]
  · simp [MessageQueue.iter, MessageQueue.next_tick]

/-- Witness for C1 at a concrete queue (current buffer `[9]`, empty next
buffer) and the pushed sequence `[1, 2]`. -/
theorem one_tick_latency_witness :
    ((MessageQueue.mk [9] [] : MessageQueue Nat).pushAll [1, 2]).iter
        = (MessageQueue.mk [9] [] : MessageQueue Nat).iter
    ∧ (((MessageQueue.mk [9] [] : MessageQueue Nat).pushAll [1, 2]).next_tick).iter
        = [1, 2]
    ∧ ((((MessageQueue.mk [9] [] : MessageQueue Nat).pushAll
          [1, 2]).next_tick).next_tick).iter = [] :=
  one_tick_latency (MessageQueue.mk [9] []) [1, 2] rfl

/-- **C4** (double-advance clearing).  For every queue, the first
`next_tick` leaves an empty next buffer, so a second `next_tick` with no
intervening pushes yields an empty current buffer (and the next buffer is of
course empty again). -/
theorem double_advance_clears {T : Type} (q : MessageQueue T) :
    q.next_tick.next_tick_queue = []
    ∧ q.next_tick.next_tick.current_tick_queue = []
    ∧ q.next_tick.next_tick.next_tick_queue = [] := by
  refine ⟨rfl, rfl, rfl⟩

/-- **C5** (advance on the empty queue is the identity).  `next_tick` is
callable on a queue whose buffers are both empty, and it leaves both buffers
empty — indeed it returns the very same queue. -/
theorem advance_empty_noop {T : Type} (q : MessageQueue T)
    (hc : q.current_tick_queue = []) (hn : q.next_tick_queue = []) :
    q.next_tick.current_tick_queue = []
    ∧ q.next_tick.next_tick_queue = []
    ∧ q.next_tick = q := by
  rcases q with ⟨c, n⟩
  subst hc hn
  exact ⟨rfl, rfl, rfl⟩

/-- Witness for C5 at the concrete empty queue over `Nat`. -/
theorem advance_empty_noop_witness :
    (MessageQueue.new : MessageQueue Nat).next_tick.current_tick_queue = []
    ∧ (MessageQueue.new : MessageQueue Nat).next_tick.next_tick_queue = []
    ∧ (MessageQueue.new : MessageQueue Nat).next_tick = MessageQueue.new :=
  advance_empty_noop MessageQueue.new rfl rfl

/-- **C6** (iteration idempotence).  Iterating takes the queue by shared
reference: the call returns the current buffer in insertion order together
with the queue itself, unchanged.  Hence a second iteration — performed on
the queue returned by the first call, with no intervening `next_tick`, and
even with arbitrary intervening pushes `ms` — yields the identical
sequence. -/
theorem iteration_idempotent {T : Type} (q : MessageQueue T) (ms : List T) :
    (q.iterate.2).iterate.1 = q.iterate.1
    ∧ q.iterate.2 = q
    ∧ q.iterate.1 = q.current_tick_queue
    ∧ ((q.iterate.2).pushAll ms).iterate.1 = q.iterate.1 := by
  refine ⟨rfl, rfl, rfl, ?_⟩
  simp [MessageQueue.iterate, pushAll_current]

/-- **C7** (push frame property).  A single `push` appends its message to the
next buffer and leaves the current buffer untouched, and consequently any
sequence of pushes `ms`, in any order, leaves current-tick iteration
identical and appends exactly `ms` to the next buffer. -/
theorem push_frame_property {T : Type} (q : MessageQueue T) (m : T)
    (ms : List T) :
    (q.push m).next_tick_queue = q.next_tick_queue ++ [m]
    ∧ (q.push m).current_tick_queue = q.current_tick_queue
    ∧ (q.pushAll ms).iter = q.iter
    ∧ (q.pushAll ms).next_tick_queue = q.next_tick_queue ++ ms := by
  refine ⟨rfl, rfl, ?_, pushAll_next ms q⟩
  simp [MessageQueue.iter, pushAll_current]

/-- **C8** (totality of the queue operations).  Every operation of the
embedding is a total function — `new`, `push`, immutable iteration, mutable
iteration and `next_tick` are defined on every queue state and every input,
with no error branch, and their results are characterised below; in
particular the empty queue is a valid input of each operation and a valid
output (`new` produces it, and advancing it reproduces it). -/
theorem operations_total {T : Type} (q : MessageQueue T) (m : T) (f : T → T) :
    (MessageQueue.new : MessageQueue T).current_tick_queue = []
    ∧ (MessageQueue.new : MessageQueue T).next_tick_queue = []
    ∧ (q.push m).next_tick_queue = q.next_tick_queue ++ [m]
    ∧ (q.push m).current_tick_queue = q.current_tick_queue
    ∧ q.iter = q.current_tick_queue
    ∧ q.iterate.2 = q
    ∧ (q.iter_mut_apply f).current_tick_queue = q.current_tick_queue.map f
    ∧ (q.iter_mut_apply f).next_tick_queue = q.next_tick_queue
    ∧ q.next_tick.current_tick_queue = q.next_tick_queue
    ∧ q.next_tick.next_tick_queue = []
    ∧ (MessageQueue.new : MessageQueue T).next_tick = MessageQueue.new := by
  refine ⟨rfl, rfl, rfl, rfl, rfl, rfl, rfl, rfl, rfl, rfl, rfl⟩

/-!
## The run loop (`src/run.rs`)

`run` is generic over the program state `S`, the message type `M` and the
system representation `Sys`.  A boxed trait object with internal mutable
state is modeled as a value of `Sys` interpreted by
`upd sys s q = (s2, q2, sys2)` — the state, queue and system after
`sys.update(&mut s, &mut q)`.  The selection closure is
`sel s q systems = (s2, q2, systems2)`.

To reason about the order and number of operations the loop performs, a
second, instrumented copy of the loop (`runTrace`) additionally records the
sequence of observable events:

* `Event.advance` — one `next_tick` call;
* `Event.dispatch i cur updated` — the `update` call on the component at
  position `i` of this tick's list, which observed current buffer `cur` and
  left the component in (possibly mutated) form `updated`;
* `Event.select arg ret sa qa` — one invocation of the selection closure
  with systems-vector argument `arg`, returning `ret`, leaving the program
  state as `sa` and the queue as `qa`.
-/

/-- Observable events of one execution of the run loop. -/
inductive Event (S M Sys : Type) where
  | advance : Event S M Sys
  | dispatch (idx : Nat) (current : List M) (updated : Sys) : Event S M Sys
  | select (arg ret : List Sys) (stateAfter : S) (queueAfter : MessageQueue M) :
      Event S M Sys
deriving DecidableEq, Repr

variable {S M Sys : Type}

/-- The dispatch phase of one tick: `for system in systems.iter_mut()
{ system.update(&mut program_state, &mut message_queue); }` — each system of
the list is updated exactly once, in list order, threading the state and the
queue through, and each system is replaced in place by its updated self. -/
def dispatchList (upd : Sys → S → MessageQueue M → S × MessageQueue M × Sys) :
    List Sys → S → MessageQueue M → S × MessageQueue M × List Sys
  | [], s, q => (s, q, [])
  | sys :: rest, s, q =>
    let r1 := upd sys s q
    let r2 := dispatchList upd rest r1.1 r1.2.1
    (r2.1, r2.2.1, r1.2.2 :: r2.2.2)

/-- The dispatch phase instrumented with events; `i` is the list position of
the first system. -/
def dispatchTrace (upd : Sys → S → MessageQueue M → S × MessageQueue M × Sys) :
    Nat → List Sys → S → MessageQueue M →
      S × MessageQueue M × List Sys × List (Event S M Sys)
  | _, [], s, q => (s, q, [], [])
  | i, sys :: rest, s, q =>
    let r1 := upd sys s q
    let r2 := dispatchTrace upd (i + 1) rest r1.1 r1.2.1
    (r2.1, r2.2.1, r1.2.2 :: r2.2.2.1,
      Event.dispatch i q.current_tick_queue r1.2.2 :: r2.2.2.2)

/-- The `while !systems.is_empty()` loop of `run`, with fuel bounding the
number of ticks: if the systems list is empty the loop stops at once;
otherwise one tick runs — `next_tick` on the queue, then dispatch of every
system in order, then the selection closure on the just-dispatched list —
and the loop continues on the closure's output. -/
def runLoop (upd : Sys → S → MessageQueue M → S × MessageQueue M × Sys)
    (sel : S → MessageQueue M → List Sys → S × MessageQueue M × List Sys) :
    Nat → S → MessageQueue M → List Sys → Option (S × MessageQueue M)
  | _, s, q, [] => some (s, q)
  | 0, _, _, _ :: _ => none
  | fuel + 1, s, q, sys0 :: rest =>
    let d := dispatchList upd (sys0 :: rest) s q.next_tick
    let r := sel d.1 d.2.1 d.2.2
    runLoop upd sel fuel r.1 r.2.1 r.2.2

/-- `run` from `src/run.rs`: the selection closure is first invoked with the
empty systems vector, then the loop runs on its output.  The Rust function
returns `()`; the embedding returns the final state and queue (the values
the last selection call left behind) so that they can be observed, and
`none` when the fuel was exhausted before the loop finished. -/
def run (upd : Sys → S → MessageQueue M → S × MessageQueue M × Sys)
    (sel : S → MessageQueue M → List Sys → S × MessageQueue M × List Sys)
    (fuel : Nat) (s : S) (q : MessageQueue M) : Option (S × MessageQueue M) :=
  let r := sel s q []
  runLoop upd sel fuel r.1 r.2.1 r.2.2

/-- `runLoop` instrumented with the event trace. -/
def runLoopTrace (upd : Sys → S → MessageQueue M → S × MessageQueue M × Sys)
    (sel : S → MessageQueue M → List Sys → S × MessageQueue M × List Sys) :
    Nat → S → MessageQueue M → List Sys →
      Option (S × MessageQueue M × List (Event S M Sys))
  | _, s, q, [] => some (s, q, [])
  | 0, _, _, _ :: _ => none
  | fuel + 1, s, q, sys0 :: rest =>
    let d := dispatchTrace upd 0 (sys0 :: rest) s q.next_tick
    let r := sel d.1 d.2.1 d.2.2.1
    match runLoopTrace upd sel fuel r.1 r.2.1 r.2.2 with
    | none => none
    | some (sf, qf, tr) =>
      some (sf, qf,
        Event.advance ::
          (d.2.2.2 ++ Event.select d.2.2.1 r.2.2 r.1 r.2.1 :: tr))

/-- `run` instrumented with the event trace (including the initial selection
call, whose argument is the empty list). -/
def runTrace (upd : Sys → S → MessageQueue M → S × MessageQueue M × Sys)
    (sel : S → MessageQueue M → List Sys → S × MessageQueue M × List Sys)
    (fuel : Nat) (s : S) (q : MessageQueue M) :
    Option (S × MessageQueue M × List (Event S M Sys)) :=
  let r := sel s q []
  match runLoopTrace upd sel fuel r.1 r.2.1 r.2.2 with
  | none => none
  | some (sf, qf, tr) =>
    some (sf, qf, Event.select [] r.2.2 r.1 r.2.1 :: tr)

/-- The loop body as a single step on a loop state `(s, q, systems)`:
advance, dispatch all systems, then select.  Iterating this step describes
the successive loop states of `runLoop`. -/
def tickStep (upd : Sys → S → MessageQueue M → S × MessageQueue M × Sys)
    (sel : S → MessageQueue M → List Sys → S × MessageQueue M × List Sys)
    (t : S × MessageQueue M × List Sys) : S × MessageQueue M × List Sys :=
  let d := dispatchList upd t.2.2 t.1 t.2.1.next_tick
  sel d.1 d.2.1 d.2.2

/-!
## Trace structure

`TraceOk` is the specification-level grammar of a loop trace, written from
the spec's description of a tick (Select → Advance → Dispatch): given the
list `sys` most recently returned by the selection closure, either `sys` is
empty and nothing further happens, or one tick follows — an advance, then
one dispatch event per component at positions `0, 1, …`, in order, then one
selection call whose argument is the just-dispatched list — and the trace
continues with the list that this selection returned. -/

/-- The dispatch events of one tick, starting at position `i`: position,
observed current buffer, updated component — one per component, in order. -/
def dispatchEvents : Nat → List (List M) → List Sys → List (Event S M Sys)
  | i, c :: cs, n :: ns => Event.dispatch i c n :: dispatchEvents (i + 1) cs ns
  | _, _, _ => []

/-- Grammar of the part of a trace that follows a selection call returning
`sys` (see the section comment). -/
inductive TraceOk : List Sys → List (Event S M Sys) → Prop where
  | done : TraceOk [] []
  | tick (sys newSys ret : List Sys) (curs : List (List M)) (sa : S)
      (qa : MessageQueue M) (rest : List (Event S M Sys)) :
      sys ≠ [] → curs.length = sys.length → newSys.length = sys.length →
      TraceOk ret rest →
      TraceOk sys
        (Event.advance ::
          (dispatchEvents 0 curs newSys ++ Event.select newSys ret sa qa :: rest))

/-- Number of advance events in a trace (one per executed tick). -/
def numAdvance : List (Event S M Sys) → Nat
  | [] => 0
  | Event.advance :: rest => numAdvance rest + 1
  | _ :: rest => numAdvance rest

/-- Number of selection events in a trace. -/
def numSelect : List (Event S M Sys) → Nat
  | [] => 0
  | Event.select _ _ _ _ :: rest => numSelect rest + 1
  | _ :: rest => numSelect rest

/-- Number of selection events that returned the empty list. -/
def selectRetEmptyCount : List (Event S M Sys) → Nat
  | [] => 0
  | Event.select _ [] _ _ :: rest => selectRetEmptyCount rest + 1
  | _ :: rest => selectRetEmptyCount rest

/-- Checks that every selection call received as its argument exactly the
components dispatched since the previous advance, in dispatch order (the
accumulator collects the updated components of the current tick; the initial
selection call is checked against the empty accumulator). -/
def selArgsOk [DecidableEq Sys] : List (Event S M Sys) → List Sys → Bool
  | [], _ => true
  | Event.advance :: rest, _ => selArgsOk rest []
  | Event.dispatch _ _ n :: rest, acc => selArgsOk rest (acc ++ [n])
  | Event.select arg _ _ _ :: rest, acc => decide (arg = acc) && selArgsOk rest []

theorem numAdvance_append (l1 l2 : List (Event S M Sys)) :
    numAdvance (l1 ++ l2) = numAdvance l1 + numAdvance l2 := by
  induction l1 with
  | nil => simp [numAdvance]
  | cons e rest ih =>
      cases e with
      | advance => simp [numAdvance, ih]; omega
      | dispatch i c n => simp [numAdvance, ih]
      | select a r sa qa => simp [numAdvance, ih]

theorem numSelect_append (l1 l2 : List (Event S M Sys)) :
    numSelect (l1 ++ l2) = numSelect l1 + numSelect l2 := by
  induction l1 with
  | nil => simp [numSelect]
  | cons e rest ih =>
      cases e with
      | advance => simp [numSelect, ih]
      | dispatch i c n => simp [numSelect, ih]
      | select a r sa qa => simp [numSelect, ih]; omega

theorem selectRetEmptyCount_append (l1 l2 : List (Event S M Sys)) :
    selectRetEmptyCount (l1 ++ l2)
      = selectRetEmptyCount l1 + selectRetEmptyCount l2 := by
  induction l1 with
  | nil => simp [selectRetEmptyCount]
  | cons e rest ih =>
      cases e with
      | advance => simp [selectRetEmptyCount, ih]
      | dispatch i c n => simp [selectRetEmptyCount, ih]
      | select a r sa qa =>
          cases r with
          | nil => simp [selectRetEmptyCount, ih]; omega
          | cons r0 rs => simp [selectRetEmptyCount, ih]

theorem numAdvance_dispatchEvents (i : Nat) (cs : List (List M))
    (ns : List Sys) :
    numAdvance (dispatchEvents i cs ns : List (Event S M Sys)) = 0 := by
  induction cs generalizing i ns with
  | nil => cases ns <;> simp [dispatchEvents, numAdvance]
  | cons c cs ih =>
      cases ns with
      | nil => simp [dispatchEvents, numAdvance]
      | cons n ns => simp [dispatchEvents, numAdvance, ih]

theorem numSelect_dispatchEvents (i : Nat) (cs : List (List M))
    (ns : List Sys) :
    numSelect (dispatchEvents i cs ns : List (Event S M Sys)) = 0 := by
  induction cs generalizing i ns with
  | nil => cases ns <;> simp [dispatchEvents, numSelect]
  | cons c cs ih =>
      cases ns with
      | nil => simp [dispatchEvents, numSelect]
      | cons n ns => simp [dispatchEvents, numSelect, ih]

theorem selectRetEmptyCount_dispatchEvents (i : Nat) (cs : List (List M))
    (ns : List Sys) :
    selectRetEmptyCount (dispatchEvents i cs ns : List (Event S M Sys)) = 0 := by
  induction cs generalizing i ns with
  | nil => cases ns <;> simp [dispatchEvents, selectRetEmptyCount]
  | cons c cs ih =>
      cases ns with
      | nil => simp [dispatchEvents, selectRetEmptyCount]
      | cons n ns => simp [dispatchEvents, selectRetEmptyCount, ih]

theorem selArgsOk_dispatchEvents [DecidableEq Sys] (cs : List (List M)) :
    ∀ (i : Nat) (ns acc : List Sys) (rest : List (Event S M Sys)),
      cs.length = ns.length →
      selArgsOk (dispatchEvents i cs ns ++ rest) acc
        = selArgsOk rest (acc ++ ns) := by
  induction cs with
  | nil =>
      intro i ns acc rest h
      cases ns with
      | nil => simp [dispatchEvents]
      | cons n ns => simp at h
  | cons c cs ih =>
      intro i ns acc rest h
      cases ns with
      | nil => simp at h
      | cons n ns =>
          simp only [List.length_cons, Nat.succ.injEq] at h
          simp [dispatchEvents, selArgsOk, ih (i + 1) ns (acc ++ [n]) rest h]

/-- In a well-formed trace the number of selection events equals the number
of advance events (each executed tick has exactly one of each). -/
theorem TraceOk.select_eq_advance {sys : List Sys} {tr : List (Event S M Sys)}
    (h : TraceOk sys tr) : numSelect tr = numAdvance tr := by
  induction h with
  | done => rfl
  | tick sys newSys ret curs sa qa rest hne hcl hnl hrest ih =>
      simp [numSelect, numAdvance, numSelect_append, numAdvance_append,
        numSelect_dispatchEvents, numAdvance_dispatchEvents, ih]

/-- In a well-formed trace every selection call receives exactly the
just-dispatched component list. -/
theorem TraceOk.selArgs {sys : List Sys} {tr : List (Event S M Sys)}
    [DecidableEq Sys] (h : TraceOk sys tr) : selArgsOk tr [] = true := by
  induction h with
  | done => rfl
  | tick sys newSys ret curs sa qa rest hne hcl hnl hrest ih =>
      have hlen : curs.length = newSys.length := by omega
      simp [selArgsOk, selArgsOk_dispatchEvents curs 0 newSys [] _ hlen, ih]

variable (upd : Sys → S → MessageQueue M → S × MessageQueue M × Sys)
variable (sel : S → MessageQueue M → List Sys → S × MessageQueue M × List Sys)

theorem dispatchTrace_agree :
    ∀ (l : List Sys) (i : Nat) (s : S) (q : MessageQueue M),
      (dispatchTrace upd i l s q).1 = (dispatchList upd l s q).1
      ∧ (dispatchTrace upd i l s q).2.1 = (dispatchList upd l s q).2.1
      ∧ (dispatchTrace upd i l s q).2.2.1 = (dispatchList upd l s q).2.2 := by
  intro l
  induction l with
  | nil => intro i s q; exact ⟨rfl, rfl, rfl⟩
  | cons sys rest ih =>
      intro i s q
      obtain ⟨h1, h2, h3⟩ := ih (i + 1) (upd sys s q).1 (upd sys s q).2.1
      simp [dispatchTrace, dispatchList, h1, h2, h3]

theorem dispatchTrace_sys_length :
    ∀ (l : List Sys) (i : Nat) (s : S) (q : MessageQueue M),
      (dispatchTrace upd i l s q).2.2.1.length = l.length := by
  intro l
  induction l with
  | nil => intro i s q; rfl
  | cons sys rest ih =>
      intro i s q
      simp [dispatchTrace, ih (i + 1) (upd sys s q).1 (upd sys s q).2.1]

theorem dispatchTrace_events :
    ∀ (l : List Sys) (i : Nat) (s : S) (q : MessageQueue M),
      ∃ curs : List (List M), curs.length = l.length ∧
        (dispatchTrace upd i l s q).2.2.2
          = dispatchEvents i curs (dispatchTrace upd i l s q).2.2.1 := by
  intro l
  induction l with
  | nil => intro i s q; exact ⟨[], rfl, rfl⟩
  | cons sys rest ih =>
      intro i s q
      obtain ⟨curs, hlen, hev⟩ := ih (i + 1) (upd sys s q).1 (upd sys s q).2.1
      refine ⟨q.current_tick_queue :: curs, by simp [hlen], ?_⟩
      simp [dispatchTrace, dispatchEvents, hev]

theorem runLoopTrace_traceOk :
    ∀ (fuel : Nat) (s : S) (q : MessageQueue M) (sys : List Sys)
      (sf : S) (qf : MessageQueue M) (tr : List (Event S M Sys)),
      runLoopTrace upd sel fuel s q sys = some (sf, qf, tr) →
      TraceOk sys tr := by
  intro fuel
  induction fuel with
  | zero =>
      intro s q sys sf qf tr h
      cases sys with
      | nil =>
          simp [runLoopTrace] at h
          rw [h.2.2]
          exact TraceOk.done
      | cons sys0 rest => simp [runLoopTrace] at h
  | succ fuel ih =>
      intro s q sys sf qf tr h
      cases sys with
      | nil =>
          simp [runLoopTrace] at h
          rw [h.2.2]
          exact TraceOk.done
      | cons sys0 rest =>
          simp only [runLoopTrace] at h
          cases hrec : runLoopTrace upd sel fuel
              (sel (dispatchTrace upd 0 (sys0 :: rest) s q.next_tick).1
                (dispatchTrace upd 0 (sys0 :: rest) s q.next_tick).2.1
                (dispatchTrace upd 0 (sys0 :: rest) s q.next_tick).2.2.1).1
              (sel (dispatchTrace upd 0 (sys0 :: rest) s q.next_tick).1
                (dispatchTrace upd 0 (sys0 :: rest) s q.next_tick).2.1
                (dispatchTrace upd 0 (sys0 :: rest) s q.next_tick).2.2.1).2.1
              (sel (dispatchTrace upd 0 (sys0 :: rest) s q.next_tick).1
                (dispatchTrace upd 0 (sys0 :: rest) s q.next_tick).2.1
                (dispatchTrace upd 0 (sys0 :: rest) s q.next_tick).2.2.1).2.2 with
          | none => rw [hrec] at h; cases h
          | some v =>
              obtain ⟨sf2, qf2, tr2⟩ := v
              rw [hrec] at h
              simp only [Option.some.injEq, Prod.mk.injEq] at h
              obtain ⟨rfl, rfl, htr⟩ := h
              rw [← htr]
              obtain ⟨curs, hclen, hev⟩ :=
                dispatchTrace_events upd (sys0 :: rest) 0 s q.next_tick
              rw [hev]
              exact TraceOk.tick (sys0 :: rest) _ _ curs _ _ tr2
                (List.cons_ne_nil sys0 rest) hclen
                (dispatchTrace_sys_length upd (sys0 :: rest) 0 s q.next_tick)
                (ih _ _ _ _ _ _ hrec)

theorem runLoopTrace_runLoop :
    ∀ (fuel : Nat) (s : S) (q : MessageQueue M) (sys : List Sys)
      (sf : S) (qf : MessageQueue M) (tr : List (Event S M Sys)),
      runLoopTrace upd sel fuel s q sys = some (sf, qf, tr) →
      runLoop upd sel fuel s q sys = some (sf, qf) := by
  intro fuel
  induction fuel with
  | zero =>
      intro s q sys sf qf tr h
      cases sys with
      | nil =>
          simp [runLoopTrace] at h
          simp [runLoop, h.1, h.2.1]
      | cons sys0 rest => simp [runLoopTrace] at h
  | succ fuel ih =>
      intro s q sys sf qf tr h
      cases sys with
      | nil =>
          simp [runLoopTrace] at h
          simp [runLoop, h.1, h.2.1]
      | cons sys0 rest =>
          obtain ⟨h1, h2, h3⟩ :=
            dispatchTrace_agree upd (sys0 :: rest) 0 s q.next_tick
          simp only [runLoopTrace] at h
          rw [h1, h2, h3] at h
          cases hrec : runLoopTrace upd sel fuel
              (sel (dispatchList upd (sys0 :: rest) s q.next_tick).1
                (dispatchList upd (sys0 :: rest) s q.next_tick).2.1
                (dispatchList upd (sys0 :: rest) s q.next_tick).2.2).1
              (sel (dispatchList upd (sys0 :: rest) s q.next_tick).1
                (dispatchList upd (sys0 :: rest) s q.next_tick).2.1
                (dispatchList upd (sys0 :: rest) s q.next_tick).2.2).2.1
              (sel (dispatchList upd (sys0 :: rest) s q.next_tick).1
                (dispatchList upd (sys0 :: rest) s q.next_tick).2.1
                (dispatchList upd (sys0 :: rest) s q.next_tick).2.2).2.2 with
          | none => rw [hrec] at h; cases h
          | some v =>
              obtain ⟨sf2, qf2, tr2⟩ := v
              rw [hrec] at h
              simp only [Option.some.injEq, Prod.mk.injEq] at h
              obtain ⟨rfl, rfl, htr⟩ := h
              simpa [runLoop] using ih _ _ _ _ _ _ hrec

/-- The loop terminates within its fuel exactly when some iterate of the
loop body reaches an empty systems list. -/
theorem runLoop_isSome_iff :
    ∀ (fuel : Nat) (s : S) (q : MessageQueue M) (sys : List Sys),
      (runLoop upd sel fuel s q sys).isSome = true
      ↔ ∃ k, k ≤ fuel ∧ ((tickStep upd sel)^[k] (s, q, sys)).2.2 = [] := by
  intro fuel
  induction fuel with
  | zero =>
      intro s q sys
      cases sys with
      | nil =>
          simp only [runLoop, Option.isSome_some, true_iff]
          exact ⟨0, Nat.le_refl 0, rfl⟩
      | cons sys0 rest =>
          constructor
          · intro hsome
            rw [show runLoop upd sel 0 s q (sys0 :: rest) = none from rfl]
              at hsome
            simp at hsome
          · rintro ⟨k, hk, hemp⟩
            interval_cases k
            simp [Function.iterate_zero_apply] at hemp
  | succ fuel ih =>
      intro s q sys
      cases sys with
      | nil =>
          simp only [runLoop, Option.isSome_some, true_iff]
          exact ⟨0, Nat.zero_le _, rfl⟩
      | cons sys0 rest =>
          have hstep : runLoop upd sel (fuel + 1) s q (sys0 :: rest)
              = runLoop upd sel fuel
                  (tickStep upd sel (s, q, sys0 :: rest)).1
                  (tickStep upd sel (s, q, sys0 :: rest)).2.1
                  (tickStep upd sel (s, q, sys0 :: rest)).2.2 := rfl
          rw [hstep, ih]
          constructor
          · rintro ⟨k, hk, he⟩
            exact ⟨k + 1, by omega, by rwa [Function.iterate_succ_apply]⟩
          · rintro ⟨k, hk, he⟩
            cases k with
            | zero => simp [Function.iterate_zero_apply] at he
            | succ k =>
                exact ⟨k, by omega, by rwa [Function.iterate_succ_apply] at he⟩

/-- Every successful loop execution whose systems list was non-empty ends
with the selection event that returned the empty list; that event records
exactly the state `sf` and queue `qf` the loop hands back, and it is the
only selection event of the trace with an empty return. -/
theorem runLoopTrace_last :
    ∀ (fuel : Nat) (s : S) (q : MessageQueue M) (sys : List Sys)
      (sf : S) (qf : MessageQueue M) (tr : List (Event S M Sys)),
      runLoopTrace upd sel fuel s q sys = some (sf, qf, tr) →
      (sys = [] ∧ tr = [] ∧ sf = s ∧ qf = q)
      ∨ (∃ a, tr.getLast? = some (Event.select a [] sf qf)
          ∧ selectRetEmptyCount tr = 1) := by
  intro fuel
  induction fuel with
  | zero =>
      intro s q sys sf qf tr h
      cases sys with
      | nil =>
          simp [runLoopTrace] at h
          exact Or.inl ⟨rfl, h.2.2, (h.1).symm, (h.2.1).symm⟩
      | cons sys0 rest => simp [runLoopTrace] at h
  | succ fuel ih =>
      intro s q sys sf qf tr h
      cases sys with
      | nil =>
          simp [runLoopTrace] at h
          exact Or.inl ⟨rfl, h.2.2, (h.1).symm, (h.2.1).symm⟩
      | cons sys0 rest =>
          simp only [runLoopTrace] at h
          cases hrec : runLoopTrace upd sel fuel
              (sel (dispatchTrace upd 0 (sys0 :: rest) s q.next_tick).1
                (dispatchTrace upd 0 (sys0 :: rest) s q.next_tick).2.1
                (dispatchTrace upd 0 (sys0 :: rest) s q.next_tick).2.2.1).1
              (sel (dispatchTrace upd 0 (sys0 :: rest) s q.next_tick).1
                (dispatchTrace upd 0 (sys0 :: rest) s q.next_tick).2.1
                (dispatchTrace upd 0 (sys0 :: rest) s q.next_tick).2.2.1).2.1
              (sel (dispatchTrace upd 0 (sys0 :: rest) s q.next_tick).1
                (dispatchTrace upd 0 (sys0 :: rest) s q.next_tick).2.1
                (dispatchTrace upd 0 (sys0 :: rest) s q.next_tick).2.2.1).2.2 with
          | none => rw [hrec] at h; cases h
          | some v =>
              obtain ⟨sf2, qf2, tr2⟩ := v
              rw [hrec] at h
              simp only [Option.some.injEq, Prod.mk.injEq] at h
              obtain ⟨rfl, rfl, htr⟩ := h
              obtain ⟨curs, hclen, hev⟩ :=
                dispatchTrace_events upd (sys0 :: rest) 0 s q.next_tick
              rcases ih _ _ _ _ _ _ hrec with hl | hr
              · obtain ⟨hsys3, htr2, hsf, hqf⟩ := hl
                refine Or.inr ⟨(dispatchTrace upd 0 (sys0 :: rest) s
                    q.next_tick).2.2.1, ?_, ?_⟩
                · rw [← htr, htr2, hsys3, ← hsf, ← hqf]
                  rw [show Event.advance ::
                        ((dispatchTrace upd 0 (sys0 :: rest) s
                            q.next_tick).2.2.2 ++
                          [Event.select
                            (dispatchTrace upd 0 (sys0 :: rest) s
                              q.next_tick).2.2.1 [] sf2 qf2])
                      = (Event.advance ::
                          (dispatchTrace upd 0 (sys0 :: rest) s
                            q.next_tick).2.2.2) ++
                          [Event.select
                            (dispatchTrace upd 0 (sys0 :: rest) s
                              q.next_tick).2.2.1 [] sf2 qf2] by simp]
                  exact List.getLast?_concat _
                · rw [← htr, htr2, hsys3, hev]
                  simp [selectRetEmptyCount, selectRetEmptyCount_append,
                    selectRetEmptyCount_dispatchEvents]
              · obtain ⟨a, hlast, hcount⟩ := hr
                have htr2ne : tr2 ≠ [] := by
                  rintro rfl; simp at hlast
                have hsys3ne : (sel (dispatchTrace upd 0 (sys0 :: rest) s
                    q.next_tick).1
                    (dispatchTrace upd 0 (sys0 :: rest) s q.next_tick).2.1
                    (dispatchTrace upd 0 (sys0 :: rest) s
                      q.next_tick).2.2.1).2.2 ≠ [] := by
                  intro hnil
                  rw [hnil] at hrec
                  simp [runLoopTrace] at hrec
                  exact htr2ne hrec.2.2
                refine Or.inr ⟨a, ?_, ?_⟩
                · rw [← htr]
                  rw [show Event.advance ::
                        ((dispatchTrace upd 0 (sys0 :: rest) s
                            q.next_tick).2.2.2 ++
                          Event.select
                            (dispatchTrace upd 0 (sys0 :: rest) s
                              q.next_tick).2.2.1
                            (sel (dispatchTrace upd 0 (sys0 :: rest) s
                                q.next_tick).1
                              (dispatchTrace upd 0 (sys0 :: rest) s
                                q.next_tick).2.1
                              (dispatchTrace upd 0 (sys0 :: rest) s
                                q.next_tick).2.2.1).2.2
                            (sel (dispatchTrace upd 0 (sys0 :: rest) s
                                q.next_tick).1
                              (dispatchTrace upd 0 (sys0 :: rest) s
                                q.next_tick).2.1
                              (dispatchTrace upd 0 (sys0 :: rest) s
                                q.next_tick).2.2.1).1
                            (sel (dispatchTrace upd 0 (sys0 :: rest) s
                                q.next_tick).1
                              (dispatchTrace upd 0 (sys0 :: rest) s
                                q.next_tick).2.1
                              (dispatchTrace upd 0 (sys0 :: rest) s
                                q.next_tick).2.2.1).2.1 :: tr2)
                      = (Event.advance ::
                          ((dispatchTrace upd 0 (sys0 :: rest) s
                              q.next_tick).2.2.2 ++
                            [Event.select
                              (dispatchTrace upd 0 (sys0 :: rest) s
                                q.next_tick).2.2.1
                              (sel (dispatchTrace upd 0 (sys0 :: rest) s
                                  q.next_tick).1
                                (dispatchTrace upd 0 (sys0 :: rest) s
                                  q.next_tick).2.1
                                (dispatchTrace upd 0 (sys0 :: rest) s
                                  q.next_tick).2.2.1).2.2
                              (sel (dispatchTrace upd 0 (sys0 :: rest) s
                                  q.next_tick).1
                                (dispatchTrace upd 0 (sys0 :: rest) s
                                  q.next_tick).2.1
                                (dispatchTrace upd 0 (sys0 :: rest) s
                                  q.next_tick).2.2.1).1
                              (sel (dispatchTrace upd 0 (sys0 :: rest) s
                                  q.next_tick).1
                                (dispatchTrace upd 0 (sys0 :: rest) s
                                  q.next_tick).2.1
                                (dispatchTrace upd 0 (sys0 :: rest) s
                                  q.next_tick).2.2.1).2.1])) ++ tr2 by simp]
                  rw [List.getLast?_append_of_ne_nil _ htr2ne]
                  exact hlast
                · rw [← htr]
                  rcases hs3 : (sel (dispatchTrace upd 0 (sys0 :: rest) s
                      q.next_tick).1
                      (dispatchTrace upd 0 (sys0 :: rest) s q.next_tick).2.1
                      (dispatchTrace upd 0 (sys0 :: rest) s
                        q.next_tick).2.2.1).2.2 with _ | ⟨s3h, s3t⟩
                  · exact absurd hs3 hsys3ne
                  · rw [hev]
                    simp [selectRetEmptyCount, selectRetEmptyCount_append,
                      selectRetEmptyCount_dispatchEvents, hs3, hcount]

/-- **C2** (run-loop algorithm and termination).  First conjunct: whenever
the instrumented loop finishes within its fuel, the plain loop finishes with
the same state and queue, the very first event is the selection call with
the empty component-list argument, and the rest of the trace satisfies the
spec grammar `TraceOk`: as long as the returned list is non-empty, each tick
performs exactly one advance, then one dispatch per component at positions
`0, 1, …` in the selected list's order (none skipped, none repeated), then
one re-invocation of the selection closure; when a selection call returns
the empty list, no event whatsoever follows it.  Second conjunct: the run
terminates within its fuel exactly when some selection invocation — the
initial one (`k = 0`) or the one ending the `k`-th tick — returns the empty
list. -/
theorem run_loop_algorithm (fuel : Nat) (s : S) (q : MessageQueue M) :
    (∀ (sf : S) (qf : MessageQueue M) (tr : List (Event S M Sys)),
      runTrace upd sel fuel s q = some (sf, qf, tr) →
        run upd sel fuel s q = some (sf, qf)
        ∧ ∃ ret0 tr2, tr = Event.select [] ret0 (sel s q []).1
            (sel s q []).2.1 :: tr2 ∧ TraceOk ret0 tr2)
    ∧ ((run upd sel fuel s q).isSome = true
        ↔ ∃ k, k ≤ fuel
            ∧ ((tickStep upd sel)^[k] (sel s q [])).2.2 = []) := by
  constructor
  · intro sf qf tr h
    simp only [runTrace] at h
    cases hrec : runLoopTrace upd sel fuel (sel s q []).1 (sel s q []).2.1
        (sel s q []).2.2 with
    | none => rw [hrec] at h; cases h
    | some v =>
        obtain ⟨sf2, qf2, tr2⟩ := v
        rw [hrec] at h
        simp only [Option.some.injEq, Prod.mk.injEq] at h
        obtain ⟨rfl, rfl, htr⟩ := h
        refine ⟨?_, (sel s q []).2.2, tr2, htr.symm,
          runLoopTrace_traceOk upd sel _ _ _ _ _ _ _ hrec⟩
        simp only [run]
        exact runLoopTrace_runLoop upd sel _ _ _ _ _ _ _ hrec
  · simpa only [run] using
      runLoop_isSome_iff upd sel fuel (sel s q []).1 (sel s q []).2.1
        (sel s q []).2.2

/-- **C9** (selection-call accounting).  In every trace of a terminating
execution: the number of selection events is the number of ticks (advance
events) plus one; the first event is the initial selection call, invoked
with the empty component list — in particular no advance precedes it — and
`selArgsOk` holds: every selection invocation received as its argument
exactly the component list dispatched during the tick it ends (for the
initial call, the empty list). -/
theorem selection_call_accounting [DecidableEq Sys] (fuel : Nat) (s : S)
    (q : MessageQueue M) (sf : S) (qf : MessageQueue M)
    (tr : List (Event S M Sys))
    (h : runTrace upd sel fuel s q = some (sf, qf, tr)) :
    numSelect tr = numAdvance tr + 1
    ∧ (∃ ret0 sa0 qa0, tr.head? = some (Event.select [] ret0 sa0 qa0))
    ∧ selArgsOk tr [] = true := by
  simp only [runTrace] at h
  cases hrec : runLoopTrace upd sel fuel (sel s q []).1 (sel s q []).2.1
      (sel s q []).2.2 with
  | none => rw [hrec] at h; cases h
  | some v =>
      obtain ⟨sf2, qf2, tr2⟩ := v
      rw [hrec] at h
      simp only [Option.some.injEq, Prod.mk.injEq] at h
      obtain ⟨rfl, rfl, htr⟩ := h
      have hok := runLoopTrace_traceOk upd sel _ _ _ _ _ _ _ hrec
      rw [← htr]
      refine ⟨?_, ⟨(sel s q []).2.2, (sel s q []).1, (sel s q []).2.1, rfl⟩, ?_⟩
      · simp [numSelect, numAdvance, hok.select_eq_advance]
      · simpa [selArgsOk] using hok.selArgs

/-- **C10** (terminal pushes are never delivered).  In every trace of a
terminating execution there is exactly one selection event whose return is
the empty list, and it is the final event of the whole trace: no advance and
no dispatch follows it, and the state and queue it records are exactly the
`sf` and `qf` the run hands back.  Consequently any message the terminating
selection call pushed is still in `qf.next_tick_queue`, was never moved into
the current buffer by the loop, and no component update ran after that
point to observe it. -/
theorem terminal_pushes_unobserved (fuel : Nat) (s : S) (q : MessageQueue M)
    (sf : S) (qf : MessageQueue M) (tr : List (Event S M Sys))
    (h : runTrace upd sel fuel s q = some (sf, qf, tr)) :
    ∃ a, tr.getLast? = some (Event.select a [] sf qf)
      ∧ selectRetEmptyCount tr = 1 := by
  simp only [runTrace] at h
  cases hrec : runLoopTrace upd sel fuel (sel s q []).1 (sel s q []).2.1
      (sel s q []).2.2 with
  | none => rw [hrec] at h; cases h
  | some v =>
      obtain ⟨sf2, qf2, tr2⟩ := v
      rw [hrec] at h
      simp only [Option.some.injEq, Prod.mk.injEq] at h
      obtain ⟨rfl, rfl, htr⟩ := h
      rw [← htr]
      rcases runLoopTrace_last upd sel _ _ _ _ _ _ _ hrec with hl | hr
      · obtain ⟨hsys, htr2, hsf, hqf⟩ := hl
        refine ⟨[], ?_, ?_⟩
        · rw [htr2, hsys, hsf, hqf]; rfl
        · rw [htr2, hsys]
          simp [selectRetEmptyCount]
      · obtain ⟨a, hlast, hcount⟩ := hr
        have htr2ne : tr2 ≠ [] := by rintro rfl; simp at hlast
        have hsysne : (sel s q []).2.2 ≠ [] := by
          intro hnil
          rw [hnil] at hrec
          simp [runLoopTrace] at hrec
          exact htr2ne hrec.2.2
        refine ⟨a, ?_, ?_⟩
        · rw [show Event.select [] (sel s q []).2.2 (sel s q []).1
                (sel s q []).2.1 :: tr2
              = [Event.select [] (sel s q []).2.2 (sel s q []).1
                  (sel s q []).2.1] ++ tr2 by simp]
          rw [List.getLast?_append_of_ne_nil _ htr2ne]
          exact hlast
        · rcases hs : (sel s q []).2.2 with _ | ⟨sh, st⟩
          · exact absurd hs hsysne
          · simp [selectRetEmptyCount, hcount]

/-!
## Concrete executions

`wUpd` / `wSel` is a small two-tick scenario used to witness the generic
run-loop theorems: the single component adds the number of current messages
to a counter and pushes `7`; the selection closure seeds `5` on its first
call and stops once the counter reaches `2`.  `wSelPush` is a variant whose
terminating selection call additionally pushes `99` before returning the
empty list. -/

def wUpd : Unit → Nat → MessageQueue Nat → Nat × MessageQueue Nat × Unit :=
  fun _ s q => (s + q.iter.length, q.push 7, ())

def wSel : Nat → MessageQueue Nat → List Unit →
    Nat × MessageQueue Nat × List Unit :=
  fun s q systems =>
    if 2 ≤ s then (s, q, [])
    else if systems.isEmpty then (s, q.push 5, [()])
    else (s, q, systems)

def wSelPush : Nat → MessageQueue Nat → List Unit →
    Nat × MessageQueue Nat × List Unit :=
  fun s q systems =>
    if 1 ≤ s then (s, q.push 99, [])
    else if systems.isEmpty then (s, q.push 5, [()])
    else (s, q, systems)

/-- The full event trace of `runTrace wUpd wSel 10 0 MessageQueue.new`. -/
def wTrace : List (Event Nat Nat Unit) :=
  [Event.select [] [()] 0 (MessageQueue.mk [] [5]),
   Event.advance,
   Event.dispatch 0 [5] (),
   Event.select [()] [()] 1 (MessageQueue.mk [5] [7]),
   Event.advance,
   Event.dispatch 0 [7] (),
   Event.select [()] [] 2 (MessageQueue.mk [7] [7])]

/-- The full event trace of `runTrace wUpd wSelPush 10 0 MessageQueue.new`. -/
def wTracePush : List (Event Nat Nat Unit) :=
  [Event.select [] [()] 0 (MessageQueue.mk [] [5]),
   Event.advance,
   Event.dispatch 0 [5] (),
   Event.select [()] [] 1 (MessageQueue.mk [5] [7, 99])]

/-- Witness for C2: `run_loop_algorithm` applied to the concrete two-tick
scenario, whose recorded trace is `wTrace`. -/
theorem run_loop_algorithm_witness :
    (run wUpd wSel 10 0 MessageQueue.new = some (2, MessageQueue.mk [7] [7])
      ∧ ∃ ret0 tr2, wTrace = Event.select [] ret0
          (wSel 0 MessageQueue.new []).1
          (wSel 0 MessageQueue.new []).2.1 :: tr2 ∧ TraceOk ret0 tr2)
    ∧ ((run wUpd wSel 10 0 MessageQueue.new).isSome = true
        ↔ ∃ k, k ≤ 10
            ∧ ((tickStep wUpd wSel)^[k]
                (wSel 0 MessageQueue.new [])).2.2 = []) :=
  ⟨(run_loop_algorithm wUpd wSel 10 0 MessageQueue.new).1 2
      (MessageQueue.mk [7] [7]) wTrace (by decide),
   (run_loop_algorithm wUpd wSel 10 0 MessageQueue.new).2⟩

/-- Witness for C9: `selection_call_accounting` applied to the concrete
two-tick scenario — 3 selection calls for 2 ticks. -/
theorem selection_call_accounting_witness :
    numSelect wTrace = numAdvance wTrace + 1
    ∧ (∃ ret0 sa0 qa0, wTrace.head? = some (Event.select [] ret0 sa0 qa0))
    ∧ selArgsOk wTrace [] = true :=
  selection_call_accounting wUpd wSel 10 0 MessageQueue.new 2
    (MessageQueue.mk [7] [7]) wTrace (by decide)

/-- Witness for C10: `terminal_pushes_unobserved` applied to the scenario
whose terminating selection call pushes `99`; the returned queue still holds
`99` (and the component's `7`) in its next buffer, never advanced. -/
theorem terminal_pushes_unobserved_witness :
    ∃ a, wTracePush.getLast?
        = some (Event.select a [] 1 (MessageQueue.mk [5] [7, 99]))
      ∧ selectRetEmptyCount wTracePush = 1 :=
  terminal_pushes_unobserved wUpd wSelPush 10 0 MessageQueue.new 1
    (MessageQueue.mk [5] [7, 99]) wTracePush (by decide)

/-!
## The seeded-sum scenario (`src/run.rs`, test `test_run`)

The program state, the summing system and the selection closure below embed
the `TestProgramState`, `TestSystem` and `update_func` of the `test_run`
test in `src/run.rs`, which is the scenario claim C3 describes: the
selection closure pushes `1` on its first call (empty prior list) and
afterwards keeps returning the same single component until the component
has set `done` (which it does as soon as `10 < sum`); the component sums
all current-tick messages into `sum` and republishes the sum. -/

structure TestProgramState where
  done : Bool
  sum : Int
deriving DecidableEq, Repr

/-- `TestSystem::update` from the `test_run` test: add every current-tick
message to `sum`, push the resulting sum, and set `done` once `10 < sum`. -/
def testSystemUpdate : Unit → TestProgramState → MessageQueue Int →
    TestProgramState × MessageQueue Int × Unit :=
  fun _ s q =>
    let sum2 := q.iter.foldl (fun a b => a + b) s.sum
    ({ done := if 10 < sum2 then true else s.done, sum := sum2 },
      q.push sum2, ())

/-- `update_func` from the `test_run` test: once `done`, return the empty
list (exit); on the first call (empty prior list) push the startup message
`1` and return the single summing system; otherwise keep the systems. -/
def testUpdateFunc : TestProgramState → MessageQueue Int → List Unit →
    TestProgramState × MessageQueue Int × List Unit :=
  fun s q systems =>
    if s.done then (s, q, [])
    else if systems.isEmpty then (s, q.push 1, [()])
    else (s, q, systems)

/-- The instrumented execution of the seeded-sum scenario (fuel 10 is ample:
the loop stops after 5 ticks). -/
def testRunResult :
    Option (TestProgramState × MessageQueue Int
      × List (Event TestProgramState Int Unit)) :=
  runTrace testSystemUpdate testUpdateFunc 10
    { done := false, sum := 0 } MessageQueue.new

/-- Number of ticks (advance events) the seeded-sum execution performs. -/
def testRunTicks : Nat :=
  match testRunResult with
  | some (_, _, tr) => numAdvance tr
  | none => 0

/-- Number of selection calls of the seeded-sum execution that returned the
empty list. -/
def testRunEmptyReturns : Nat :=
  match testRunResult with
  | some (_, _, tr) => selectRetEmptyCount tr
  | none => 0

/-- Final `sum` of the seeded-sum execution. -/
def testRunFinalSum : Int :=
  match testRunResult with
  | some (sf, _, _) => sf.sum
  | none => 0

/-- Checks that, throughout a trace of the seeded-sum scenario, a selection
call returned the empty list exactly when the program-state sum it observed
exceeded 10. -/
def selectEmptyIffSumGt10 : List (Event TestProgramState Int Unit) → Bool
  | [] => true
  | Event.select _ ret sa _ :: rest =>
      (ret.isEmpty == decide (10 < sa.sum)) && selectEmptyIffSumGt10 rest
  | _ :: rest => selectEmptyIffSumGt10 rest

/-- Whether every selection call of the seeded-sum execution returned the
empty list exactly when the sum it observed exceeded 10. -/
def testRunSelectsConsistent : Bool :=
  match testRunResult with
  | some (_, _, tr) => selectEmptyIffSumGt10 tr
  | none => false

/-- **C3, counterexample.**  The seeded-sum scenario terminates, but not
after 4 ticks as claimed: running the embedded `test_run` scenario performs
a number of advance/dispatch cycles different from 4 (namely 5 — the sums
after successive ticks are 1, 2, 4, 8, 16, and 16 is the first to exceed
10). -/
theorem seeded_sum_counterexample :
    testRunResult.isSome = true ∧ testRunTicks ≠ 4 := by decide

/-- **C3, amended.**  The seeded-sum scenario terminates after exactly 5
ticks with final sum 16 (the deterministic doubling trace 1, 2, 4, 8, 16),
and the selection closure returns the empty list exactly once the sum
exceeds 10: every selection call saw `sum ≤ 10` and returned the component
except the final one, which saw `sum = 16 > 10` and returned the empty
list. -/
theorem seeded_sum_amended :
    testRunResult.isSome = true
    ∧ testRunTicks = 5
    ∧ testRunFinalSum = 16
    ∧ (10 : Int) < testRunFinalSum
    ∧ testRunEmptyReturns = 1
    ∧ testRunSelectsConsistent = true := by decide

end FlightBrain
